import Mathlib

/-!
# Verification of the pipelined kernel dispatcher of `Alveo-PYNQ`'s
# `1-kernel-optimizations.ipynb`

The repository's single source file is a notebook that drives a vector-add
FPGA kernel over sliced buffers, in a serial mode (cell 27) and an
overlapped, depth-1 double-buffered mode (cell 33).  The specification
generalizes these two loops into `run_serial` and `run_overlapped`
(arbitrary slice count, configurable pipeline depth, argument validation,
fault propagation); those generalized routines are not present in the
source, so they are modelled here from the spec, with the notebook's
literal loops recovered as the instances `slice_count = 10`,
`pipeline_depth = 1`, no faults.

The embedding is a small event machine: the runtime primitives
(`sync_to_device` of each input slice, `start`, `wait`, `sync_from_device`
of an output slice) become events; a machine state holds the device-side
copies of the buffers, the at-most-one pending invocation, and the
host-side output buffer.  The dispatcher routines are recursive loops that
issue events in the source's order, returning both the event trace and the
final state.
-/

namespace KernelOpt

/-- One slice of a buffer: the flat list of its (32-bit unsigned) elements. -/
abbrev Slice := List Nat

/-- A host buffer sliced along its leading dimension (cell 25 allocates
shape `(10, 1024, 1024)` of `u4`): the list of its slices. -/
abbrev Buffer := List Slice

/-- The vector-add kernel's per-element semantics: 32-bit unsigned
(`u4`) addition, which wraps modulo `2 ^ 32`. -/
def wrapAdd32 (a b : Nat) : Nat := (a + b) % 2 ^ 32

/-- The elementwise reference computation (the software model of
`out = in1 + in2` on `u4` arrays, checked in cells 29 and 35 via
`np.array_equal(out_iter, in1_iter + in2_iter)`). -/
def vaddRef (inA inB : Buffer) : Buffer :=
  List.zipWith (fun x y => List.zipWith wrapAdd32 x y) inA inB

/-- The runtime calls the dispatcher issues, as events:
`tinA i` / `tinB i` are `in1_iter[i].sync_to_device()` /
`in2_iter[i].sync_to_device()`; `start i` is
`vadd_wide_mb.start(in1_iter[i], in2_iter[i], out_iter[i], size)`
(the blocking `.call` is `start` immediately followed by `wait`);
`wait i` is `handle.wait()`; `tout i` is `out_iter[i].sync_from_device()`. -/
inductive Ev where
  | tinA  (i : Nat)
  | tinB  (i : Nat)
  | start (i : Nat)
  | wait  (i : Nat)
  | tout  (i : Nat)
deriving DecidableEq, Repr

/-- Machine state threaded through a run: device-side copies of the two
input buffers and of the output buffer (slice-indexed; a slice not yet
transferred reads as `[]`), the at-most-one outstanding invocation
(slice index together with the result the device will deliver), and the
host-side output buffer. -/
@[ext]
structure MachState where
  devA : Nat → Slice
  devB : Nat → Slice
  devOut : Nat → Slice
  pending : Option (Nat × Slice)
  hostOut : Buffer

/-- Initial state: nothing transferred, nothing outstanding, the host
output buffer as allocated. -/
def initState (out : Buffer) : MachState where
  devA := fun _ => []
  devB := fun _ => []
  devOut := fun _ => []
  pending := none
  hostOut := out

/-- Effect of one runtime call on the machine state.  A transfer-in copies
the host slice to the device; `start i` latches the invocation of slice
`i`, whose result is the wrapping elementwise sum of the device-side input
slices; `wait` commits the pending invocation's result to the device-side
output slice; a transfer-out copies a device-side output slice back into
the host output buffer. -/
def execEv (inA inB : Buffer) (st : MachState) : Ev → MachState
  | .tinA i => { st with devA := fun j => if j = i then inA.getD i [] else st.devA j }
  | .tinB i => { st with devB := fun j => if j = i then inB.getD i [] else st.devB j }
  | .start i =>
      { st with pending := some (i, List.zipWith wrapAdd32 (st.devA i) (st.devB i)) }
  | .wait _ =>
      match st.pending with
      | some (j, v) =>
          { st with devOut := fun k => if k = j then v else st.devOut k, pending := none }
      | none => st
  | .tout i => { st with hostOut := st.hostOut.set i (st.devOut i) }

/-- Run a list of events left to right. -/
def execEvs (inA inB : Buffer) (st : MachState) : List Ev → MachState
  | [] => st
  | e :: r => execEvs inA inB (execEv inA inB st e) r

/-- The events of one serial iteration (cell 27's loop body): transfer in
slice `i` of both inputs, blocking kernel call on slice `i`
(= start then wait), transfer out slice `i` of the output. -/
def serialIterEvs (i : Nat) : List Ev :=
  [.tinA i, .tinB i, .start i, .wait i, .tout i]

/-- The serial loop (cell 27), with the remaining iteration count `r` and
the current slice index `i`; issues each iteration's events in order and
executes them as issued. -/
def serialLoop (inA inB : Buffer) : Nat → Nat → MachState → List Ev × MachState
  | 0, _, st => ([], st)
  | r + 1, i, st =>
      let st1 := execEvs inA inB st (serialIterEvs i)
      let res := serialLoop inA inB r (i + 1) st1
      (serialIterEvs i ++ res.1, res.2)

/-- Modelled from the spec: `run_serial` — the baseline mode of §4.1,
generalizing cell 27's `for i in range(10)` loop to an arbitrary
`slice_count` `n`.  For each `i` in `0..n`: transfer-in slice `i` of both
inputs, synchronously invoke the kernel on slice `i`, transfer-out slice
`i` of the output.  Returns the trace of issued runtime calls and the
final host output buffer. -/
def run_serial (inA inB out : Buffer) (n : Nat) : List Ev × Buffer :=
  let (evs, st) := serialLoop inA inB n 0 (initState out)
  (evs, st.hostOut)

/-- Phase of the pipeline in which a failure occurred (spec §7). -/
inductive Phase where
  | transferIn
  | invoke
  | transferOut
deriving DecidableEq, Repr

/-- Modelled from the spec: the dispatcher's error taxonomy (§4.1, §7):
`invalidArgument` for bad shapes or slice/depth counts, and a device
reported invocation fault identifying the slice and the phase. -/
inductive PipeError where
  | invalidArgument
  | invocationFailure (slice : Nat) (phase : Phase)
deriving DecidableEq, Repr

/-- The events of one overlapped iteration (cell 33's loop body,
generalized to depth `d` per spec §4.1 step 2): start the invocation on
slice `i`; while it is outstanding, transfer in slice `i + d` if
`i + d < n` (cell 33: `if i < 9`) and transfer out slice `i - d` if
`d ≤ i` (cell 33: `if i > 0`); then wait on slice `i`'s handle. -/
def iterEvs (n d i : Nat) : List Ev :=
  [.start i]
    ++ (if i + d < n then [.tinA (i + d), .tinB (i + d)] else [])
    ++ (if d ≤ i then [.tout (i - d)] else [])
    ++ [.wait i]

/-- Pipeline priming (spec §4.1 step 1; cell 33's two `sync_to_device`
calls before the loop, generalized to depth `d`): transfer in slices
`0..d-1` of both inputs. -/
def primeEvs (d : Nat) : List Ev :=
  (List.range d).flatMap (fun j => [.tinA j, .tinB j])

/-- Pipeline drain (spec §4.1 step 3; cell 33's final
`out_iter[9].sync_from_device()`, generalized): transfer out the final
`d` output slices `n-d .. n-1`. -/
def drainEvs (n d : Nat) : List Ev :=
  (List.range d).map (fun j => .tout (n - d + j))

/-- Modelled from the spec: the overlapped loop (§4.1 step 2; cell 33's
`for i in range(10)`), with fault injection `f`: `f i = true` means the
wait on slice `i`'s handle reports a device-side fault, upon which the
loop propagates the error immediately — the faulting iteration's events
(ending in its wait) are the last issued, and no further iteration runs. -/
def overLoop (inA inB : Buffer) (n d : Nat) (f : Nat → Bool) :
    Nat → Nat → MachState → List Ev × MachState × Option PipeError
  | 0, _, st => ([], st, none)
  | r + 1, i, st =>
      let st1 := execEvs inA inB st (iterEvs n d i)
      if f i then
        (iterEvs n d i, st1, some (.invocationFailure i .invoke))
      else
        let res := overLoop inA inB n d f r (i + 1) st1
        (iterEvs n d i ++ res.1, res.2.1, res.2.2)

/-- Modelled from the spec: `run_overlapped` — the overlapped mode of
§4.1, generalizing cell 33 to arbitrary `slice_count` `n` and
`pipeline_depth` `d`, with argument validation and fault propagation.
Validates before issuing anything: the three buffers must agree on the
slice dimension, `n ≥ 1`, and `0 < d ≤ n`, else `invalidArgument` with an
empty trace.  Then primes the pipeline, runs the loop (propagating a
device fault immediately), and on success drains the last `d` output
slices and returns the host output buffer. -/
def run_overlapped (inA inB out : Buffer) (n d : Nat) (f : Nat → Bool) :
    List Ev × Except PipeError Buffer :=
  if inA.length ≠ inB.length ∨ inA.length ≠ out.length ∨ n < 1 ∨ d = 0 ∨ n < d then
    ([], .error .invalidArgument)
  else
    let st0 := execEvs inA inB (initState out) (primeEvs d)
    let res := overLoop inA inB n d f n 0 st0
    match res.2.2 with
    | some e => (primeEvs d ++ res.1, .error e)
    | none =>
        let stF := execEvs inA inB res.2.1 (drainEvs n d)
        (primeEvs d ++ res.1 ++ drainEvs n d, .ok stF.hostOut)

/-- The literal notebook schedule (cell 33, `slice_count = 10`,
`pipeline_depth = 1`): the trace of runtime calls exactly as written in
the source. -/
def notebookCell33Trace : List Ev :=
  [.tinA 0, .tinB 0,
   .start 0, .tinA 1, .tinB 1, .wait 0,
   .start 1, .tinA 2, .tinB 2, .tout 0, .wait 1,
   .start 2, .tinA 3, .tinB 3, .tout 1, .wait 2,
   .start 3, .tinA 4, .tinB 4, .tout 2, .wait 3,
   .start 4, .tinA 5, .tinB 5, .tout 3, .wait 4,
   .start 5, .tinA 6, .tinB 6, .tout 4, .wait 5,
   .start 6, .tinA 7, .tinB 7, .tout 5, .wait 6,
   .start 7, .tinA 8, .tinB 8, .tout 6, .wait 7,
   .start 8, .tinA 9, .tinB 9, .tout 7, .wait 8,
   .start 9, .tout 8, .wait 9,
   .tout 9]

/-- Sanity: the generalized `run_overlapped` at `slice_count = 10`,
`pipeline_depth = 1`, no faults, issues exactly the notebook's call
sequence. -/
theorem run_overlapped_matches_notebook :
    (run_overlapped (List.replicate 10 []) (List.replicate 10 [])
      (List.replicate 10 []) 10 1 (fun _ => false)).1 = notebookCell33Trace := by
  decide

/-! ## Trace characterizations -/

theorem execEvs_append (inA inB : Buffer) (st : MachState) (xs ys : List Ev) :
    execEvs inA inB st (xs ++ ys) = execEvs inA inB (execEvs inA inB st xs) ys := by
  induction xs generalizing st with
  | nil => rfl
  | cons e r ih => simp [execEvs, ih]

theorem serialLoop_eq (inA inB : Buffer) (r : Nat) :
    ∀ (i : Nat) (st : MachState),
      serialLoop inA inB r i st =
        ((List.range' i r).flatMap serialIterEvs,
          execEvs inA inB st ((List.range' i r).flatMap serialIterEvs)) := by
  induction r with
  | zero => intro i st; simp [serialLoop, execEvs]
  | succ r ih =>
      intro i st
      rw [List.range'_succ, List.flatMap_cons, execEvs_append]
      simp only [serialLoop, ih]

/-- The full serial trace in closed form. -/
def serialTrace (n : Nat) : List Ev := (List.range n).flatMap serialIterEvs

theorem run_serial_eq (inA inB out : Buffer) (n : Nat) :
    run_serial inA inB out n =
      (serialTrace n, (execEvs inA inB (initState out) (serialTrace n)).hostOut) := by
  simp [run_serial, serialLoop_eq, serialTrace, List.range_eq_range']

theorem overLoop_noFault (inA inB : Buffer) (n d : Nat) (f : Nat → Bool) (r : Nat) :
    ∀ (i : Nat) (st : MachState), (∀ j, i ≤ j → j < i + r → f j = false) →
      overLoop inA inB n d f r i st =
        ((List.range' i r).flatMap (iterEvs n d),
          execEvs inA inB st ((List.range' i r).flatMap (iterEvs n d)), none) := by
  induction r with
  | zero => intro i st _; simp [overLoop, execEvs]
  | succ r ih =>
      intro i st hf
      have hfi : f i = false := hf i le_rfl (by omega)
      rw [List.range'_succ, List.flatMap_cons, execEvs_append]
      simp only [overLoop, hfi, Bool.false_eq_true, if_false]
      rw [ih (i + 1) _ (fun j h1 h2 => hf j (by omega) (by omega))]

theorem overLoop_fault (inA inB : Buffer) (n d : Nat) (f : Nat → Bool) (r : Nat) :
    ∀ (i k : Nat) (st : MachState), i ≤ k → k < i + r → f k = true →
      (∀ j, i ≤ j → j < k → f j = false) →
      (overLoop inA inB n d f r i st).1 =
          (List.range' i (k + 1 - i)).flatMap (iterEvs n d) ∧
        (overLoop inA inB n d f r i st).2.2 =
          some (.invocationFailure k .invoke) := by
  induction r with
  | zero => intro i k st h1 h2; omega
  | succ r ih =>
      intro i k st hik hkr hfk hf
      by_cases hi : i = k
      · subst hi
        simp [overLoop, hfk, List.range'_succ]
      · have hfi : f i = false := hf i le_rfl (by omega)
        simp only [overLoop, hfi, Bool.false_eq_true, if_false]
        obtain ⟨h1, h2⟩ :=
          ih (i + 1) k _ (by omega) (by omega) hfk (fun j hj1 hj2 => hf j (by omega) hj2)
        refine ⟨?_, h2⟩
        have hsplit : k + 1 - i = (k + 1 - (i + 1)) + 1 := by omega
        rw [hsplit, List.range'_succ, List.flatMap_cons, h1]

/-- The full overlapped trace in closed form (no fault): priming, the `n`
iteration blocks, then the drain. -/
def overlappedTrace (n d : Nat) : List Ev :=
  primeEvs d ++ (List.range n).flatMap (iterEvs n d) ++ drainEvs n d

theorem run_overlapped_eq (inA inB out : Buffer) (n d : Nat)
    (hAB : inA.length = inB.length) (hAO : inA.length = out.length)
    (hn : 1 ≤ n) (hd : 1 ≤ d) (hdn : d ≤ n) :
    run_overlapped inA inB out n d (fun _ => false) =
      (overlappedTrace n d,
        .ok (execEvs inA inB (initState out) (overlappedTrace n d)).hostOut) := by
  rw [run_overlapped, if_neg (by omega)]
  simp only [overLoop_noFault inA inB n d (fun _ => false) n 0
    (execEvs inA inB (initState out) (primeEvs d)) (fun j _ _ => rfl)]
  simp [overlappedTrace, execEvs_append, List.range_eq_range']

/-! ## Effect of the priming and drain phases on the machine state -/

/-- The expected device-side result for slice `j`. -/
def refSlice (inA inB : Buffer) (j : Nat) : Slice :=
  List.zipWith wrapAdd32 (inA.getD j []) (inB.getD j [])

theorem exec_primeEvs (inA inB : Buffer) (st : MachState) (d : Nat) :
    execEvs inA inB st (primeEvs d) =
      { st with
        devA := fun j => if j < d then inA.getD j [] else st.devA j,
        devB := fun j => if j < d then inB.getD j [] else st.devB j } := by
  induction d with
  | zero =>
      simp only [primeEvs, List.range_zero, List.flatMap_nil, execEvs]
      apply MachState.ext <;> simp
  | succ d ih =>
      have hsplit : primeEvs (d + 1) = primeEvs d ++ [.tinA d, .tinB d] := by
        simp [primeEvs, List.range_succ]
      rw [hsplit, execEvs_append, ih]
      simp only [execEvs, execEv]
      apply MachState.ext <;> try rfl
      · funext j
        by_cases hj : j = d
        · subst hj; simp
        · simp only [if_neg hj]
          by_cases hj2 : j < d
          · rw [if_pos hj2, if_pos (by omega)]
          · rw [if_neg hj2, if_neg (by omega)]
      · funext j
        by_cases hj : j = d
        · subst hj; simp
        · simp only [if_neg hj]
          by_cases hj2 : j < d
          · rw [if_pos hj2, if_pos (by omega)]
          · rw [if_neg hj2, if_neg (by omega)]

theorem toutRun_devOut (inA inB : Buffer) (st : MachState) (c m : Nat) :
    (execEvs inA inB st ((List.range m).map (fun j => Ev.tout (c + j)))).devOut =
      st.devOut := by
  induction m with
  | zero => rfl
  | succ m ih =>
      rw [List.range_succ, List.map_append, execEvs_append]
      simp [execEvs, execEv, ih]

theorem toutRun_hostLen (inA inB : Buffer) (st : MachState) (c m : Nat) :
    (execEvs inA inB st ((List.range m).map (fun j => Ev.tout (c + j)))).hostOut.length =
      st.hostOut.length := by
  induction m with
  | zero => rfl
  | succ m ih =>
      rw [List.range_succ, List.map_append, execEvs_append]
      simp [execEvs, execEv, ih]

theorem toutRun_hostOut (inA inB : Buffer) (st : MachState) (c m j : Nat) :
    (execEvs inA inB st ((List.range m).map (fun j => Ev.tout (c + j)))).hostOut[j]? =
      if c ≤ j ∧ j < c + m ∧ j < st.hostOut.length then some (st.devOut j)
      else st.hostOut[j]? := by
  induction m with
  | zero => rw [if_neg (by omega)]; rfl
  | succ m ih =>
      rw [List.range_succ, List.map_append, execEvs_append]
      simp only [execEvs, execEv, List.map_cons, List.map_nil]
      rw [List.getElem?_set, toutRun_devOut, toutRun_hostLen, ih]
      by_cases h1 : c + m = j
      · subst h1
        by_cases h2 : c + m < st.hostOut.length
        · have hc : c ≤ c + m ∧ c + m < c + (m + 1) ∧ c + m < st.hostOut.length :=
            ⟨by omega, by omega, h2⟩
          rw [if_pos h2, if_pos hc, if_pos rfl]
        · have hc : ¬(c ≤ c + m ∧ c + m < c + (m + 1) ∧ c + m < st.hostOut.length) := by
            omega
          rw [if_neg h2, if_neg hc, if_pos rfl]
          symm
          exact List.getElem?_eq_none (by omega)
      · rw [if_neg h1]
        by_cases h3 : c ≤ j ∧ j < c + m ∧ j < st.hostOut.length
        · have hc : c ≤ j ∧ j < c + (m + 1) ∧ j < st.hostOut.length :=
            ⟨h3.1, by omega, h3.2.2⟩
          rw [if_pos h3, if_pos hc]
        · have hc : ¬(c ≤ j ∧ j < c + (m + 1) ∧ j < st.hostOut.length) := by omega
          rw [if_neg h3, if_neg hc]

/-! ## Effect of one iteration block on the machine state -/

theorem exec_iterEvs (inA inB : Buffer) (st : MachState) (n d i : Nat) :
    execEvs inA inB st (iterEvs n d i) =
      { devA := fun j => if i + d < n ∧ j = i + d then inA.getD (i + d) [] else st.devA j,
        devB := fun j => if i + d < n ∧ j = i + d then inB.getD (i + d) [] else st.devB j,
        devOut := fun k =>
          if k = i then List.zipWith wrapAdd32 (st.devA i) (st.devB i) else st.devOut k,
        pending := none,
        hostOut := if d ≤ i then st.hostOut.set (i - d) (st.devOut (i - d))
          else st.hostOut } := by
  by_cases h1 : i + d < n <;> by_cases h2 : d ≤ i <;>
    · simp only [iterEvs, h1, h2, if_true, if_false, ite_true, ite_false,
        List.append_assoc, List.cons_append, List.nil_append]
      simp only [execEvs, execEv]
      apply MachState.ext <;> try rfl
      all_goals funext j
      all_goals simp only [h1, h2, true_and, false_and, if_false, ite_false]

theorem exec_serialIterEvs (inA inB : Buffer) (st : MachState) (i : Nat) :
    execEvs inA inB st (serialIterEvs i) =
      { devA := fun j => if j = i then inA.getD i [] else st.devA j,
        devB := fun j => if j = i then inB.getD i [] else st.devB j,
        devOut := fun k => if k = i then refSlice inA inB i else st.devOut k,
        pending := none,
        hostOut := st.hostOut.set i (refSlice inA inB i) } := by
  simp only [serialIterEvs, execEvs, execEv, refSlice]
  apply MachState.ext <;> simp

/-! ## The overlapped loop invariant -/

/-- Invariant of the overlapped loop after the priming phase and
iteration blocks `0 .. i-1` have executed: input slices below
`min (i+d) n` are on the device, results of slices below `i` are in the
device-side output buffer, no invocation is outstanding, and output
slices below `i-d` have been transferred back into the host output
buffer. -/
structure LoopInv (inA inB out : Buffer) (n d i : Nat) (st : MachState) : Prop where
  devA_eq : ∀ j, j < min (i + d) n → st.devA j = inA.getD j []
  devB_eq : ∀ j, j < min (i + d) n → st.devB j = inB.getD j []
  devOut_eq : ∀ j, j < i → st.devOut j = refSlice inA inB j
  pending_none : st.pending = none
  hostLen : st.hostOut.length = out.length
  hostOut_eq : ∀ j, j + d < i → st.hostOut[j]? = some (refSlice inA inB j)

theorem loopInv_zero (inA inB out : Buffer) (n d : Nat) :
    LoopInv inA inB out n d 0 (execEvs inA inB (initState out) (primeEvs d)) := by
  rw [exec_primeEvs]
  refine ⟨?_, ?_, ?_, rfl, rfl, ?_⟩
  · intro j hj
    dsimp only
    rw [if_pos (by omega)]
  · intro j hj
    dsimp only
    rw [if_pos (by omega)]
  · intro j hj
    exact absurd hj (by omega)
  · intro j hj
    exact absurd hj (by omega)

theorem loopInv_step (inA inB out : Buffer) (n d i : Nat) (st : MachState)
    (hd : 1 ≤ d) (hi : i < n) (hlen : out.length = n)
    (inv : LoopInv inA inB out n d i st) :
    LoopInv inA inB out n d (i + 1) (execEvs inA inB st (iterEvs n d i)) := by
  rw [exec_iterEvs]
  refine ⟨?_, ?_, ?_, rfl, ?_, ?_⟩
  · intro j hj
    dsimp only
    by_cases hc : i + d < n ∧ j = i + d
    · rw [if_pos hc, hc.2]
    · rw [if_neg hc]
      exact inv.devA_eq j (by omega)
  · intro j hj
    dsimp only
    by_cases hc : i + d < n ∧ j = i + d
    · rw [if_pos hc, hc.2]
    · rw [if_neg hc]
      exact inv.devB_eq j (by omega)
  · intro j hj
    dsimp only
    by_cases hc : j = i
    · subst hc
      rw [if_pos rfl, inv.devA_eq j (by omega), inv.devB_eq j (by omega)]
      rfl
    · rw [if_neg hc]
      exact inv.devOut_eq j (by omega)
  · dsimp only
    by_cases h2 : d ≤ i
    · rw [if_pos h2]
      rw [List.length_set]
      exact inv.hostLen
    · rw [if_neg h2]
      exact inv.hostLen
  · intro j hj
    dsimp only
    by_cases h2 : d ≤ i
    · rw [if_pos h2, List.getElem?_set]
      by_cases hc : i - d = j
      · have hlt : i - d < st.hostOut.length := by
          rw [inv.hostLen, hlen]; omega
        rw [if_pos hc, if_pos hlt, inv.devOut_eq (i - d) (by omega), hc]
      · rw [if_neg hc]
        exact inv.hostOut_eq j (by omega)
    · rw [if_neg h2]
      exact inv.hostOut_eq j (by omega)

theorem loopInv_iterate (inA inB out : Buffer) (n d : Nat)
    (hd : 1 ≤ d) (hlen : out.length = n) (r : Nat) :
    ∀ (i : Nat) (st : MachState), i + r ≤ n → LoopInv inA inB out n d i st →
      LoopInv inA inB out n d (i + r)
        (execEvs inA inB st ((List.range' i r).flatMap (iterEvs n d))) := by
  induction r with
  | zero =>
      intro i st _ inv
      simpa [execEvs] using inv
  | succ r ih =>
      intro i st hir inv
      rw [List.range'_succ, List.flatMap_cons, execEvs_append]
      have step := loopInv_step inA inB out n d i st hd (by omega) hlen inv
      have res := ih (i + 1) _ (by omega) step
      have heq : i + (r + 1) = (i + 1) + r := by omega
      rw [heq]
      exact res

/-! ## The serial loop invariant -/

/-- Invariant of the serial loop after iterations `0 .. i-1`: no
invocation outstanding, output slices below `i` are back on the host. -/
structure SerialInv (inA inB out : Buffer) (i : Nat) (st : MachState) : Prop where
  pending_none : st.pending = none
  hostLen : st.hostOut.length = out.length
  hostOut_eq : ∀ j, j < i → st.hostOut[j]? = some (refSlice inA inB j)

theorem serialInv_step (inA inB out : Buffer) (n i : Nat) (st : MachState)
    (hi : i < n) (hlen : out.length = n)
    (inv : SerialInv inA inB out i st) :
    SerialInv inA inB out (i + 1) (execEvs inA inB st (serialIterEvs i)) := by
  rw [exec_serialIterEvs]
  refine ⟨rfl, ?_, ?_⟩
  · dsimp only
    rw [List.length_set]
    exact inv.hostLen
  · intro j hj
    dsimp only
    rw [List.getElem?_set]
    by_cases hc : i = j
    · have hlt : i < st.hostOut.length := by
        rw [inv.hostLen, hlen]; omega
      rw [if_pos hc, if_pos hlt, hc]
    · rw [if_neg hc]
      exact inv.hostOut_eq j (by omega)

theorem serialInv_iterate (inA inB out : Buffer) (n : Nat) (hlen : out.length = n)
    (r : Nat) :
    ∀ (i : Nat) (st : MachState), i + r ≤ n → SerialInv inA inB out i st →
      SerialInv inA inB out (i + r)
        (execEvs inA inB st ((List.range' i r).flatMap serialIterEvs)) := by
  induction r with
  | zero =>
      intro i st _ inv
      simpa [execEvs] using inv
  | succ r ih =>
      intro i st hir inv
      rw [List.range'_succ, List.flatMap_cons, execEvs_append]
      have step := serialInv_step inA inB out n i st (by omega) hlen inv
      have res := ih (i + 1) _ (by omega) step
      have heq : i + (r + 1) = (i + 1) + r := by omega
      rw [heq]
      exact res

/-! ## The output buffer equals the reference computation -/

/-- A host buffer whose length is `n` and whose every slice below `n` is
the reference slice is exactly the reference computation's output. -/
theorem hostOut_eq_vaddRef (inA inB : Buffer) (n : Nat) (l : Buffer)
    (hA : inA.length = n) (hB : inB.length = n) (hl : l.length = n)
    (h : ∀ j, j < n → l[j]? = some (refSlice inA inB j)) :
    l = vaddRef inA inB := by
  apply List.ext_getElem?
  intro j
  by_cases hj : j < n
  · rw [h j hj, vaddRef, List.getElem?_zipWith,
      List.getElem?_eq_getElem (by omega), List.getElem?_eq_getElem (by omega)]
    dsimp only
    rw [refSlice, List.getD_eq_getElem inA [] (by omega),
      List.getD_eq_getElem inB [] (by omega)]
  · rw [List.getElem?_eq_none (by omega), List.getElem?_eq_none]
    rw [vaddRef, List.length_zipWith]
    omega

theorem run_serial_correct (inA inB out : Buffer) (n : Nat)
    (hA : inA.length = n) (hB : inB.length = n) (hO : out.length = n) :
    (run_serial inA inB out n).2 = vaddRef inA inB := by
  rw [run_serial_eq]
  dsimp only
  have inv0 : SerialInv inA inB out 0 (initState out) :=
    ⟨rfl, rfl, fun j hj => absurd hj (by omega)⟩
  have invN := serialInv_iterate inA inB out n hO n 0 (initState out) (by omega) inv0
  rw [serialTrace, List.range_eq_range']
  apply hostOut_eq_vaddRef inA inB n _ hA hB
  · rw [(serialInv_iterate inA inB out n hO n 0 (initState out) (by omega) inv0).hostLen,
      hO]
  · intro j hj
    exact invN.hostOut_eq j (by omega)

theorem run_overlapped_correct (inA inB out : Buffer) (n d : Nat)
    (hA : inA.length = n) (hB : inB.length = n) (hO : out.length = n)
    (hn : 1 ≤ n) (hd : 1 ≤ d) (hdn : d ≤ n) :
    (run_overlapped inA inB out n d (fun _ => false)).2 =
      Except.ok (vaddRef inA inB) := by
  rw [run_overlapped_eq inA inB out n d (by omega) (by omega) hn hd hdn]
  dsimp only
  rw [Except.ok.injEq]
  have invN := loopInv_iterate inA inB out n d hd hO n 0 _ (by omega)
    (loopInv_zero inA inB out n d)
  have hzn : (0 : Nat) + n = n := by omega
  rw [hzn] at invN
  rw [overlappedTrace, execEvs_append, execEvs_append, drainEvs]
  apply hostOut_eq_vaddRef inA inB n _ hA hB
  · rw [toutRun_hostLen, List.range_eq_range', invN.hostLen, hO]
  · intro j hj
    rw [toutRun_hostOut, List.range_eq_range']
    have hLen : (execEvs inA inB (execEvs inA inB (initState out) (primeEvs d))
        ((List.range' 0 n).flatMap (iterEvs n d))).hostOut.length = n := by
      rw [invN.hostLen, hO]
    by_cases hc : n - d ≤ j ∧ j < n - d + d ∧ j <
        (execEvs inA inB (execEvs inA inB (initState out) (primeEvs d))
          ((List.range' 0 n).flatMap (iterEvs n d))).hostOut.length
    · rw [if_pos hc, invN.devOut_eq j (by omega)]
    · rw [if_neg hc]
      exact invN.hostOut_eq j (by omega)

/-! ## Temporal scanners over traces -/

/-- The invocation outstanding after a sequence of runtime calls: a
`start` makes its slice the outstanding one, a `wait` clears it
(the dispatcher keeps at most one invocation in flight). -/
def outstandingAfter (o : Option Nat) : List Ev → Option Nat
  | [] => o
  | .start i :: r => outstandingAfter (some i) r
  | .wait _ :: r => outstandingAfter none r
  | .tinA _ :: r => outstandingAfter o r
  | .tinB _ :: r => outstandingAfter o r
  | .tout _ :: r => outstandingAfter o r

/-- Slice-exclusivity check: scanning the trace while tracking the
outstanding invocation, every transfer issued while an invocation is in
flight must target a slice different from the invocation's slice. -/
def noHaz (o : Option Nat) : List Ev → Bool
  | [] => true
  | .start i :: r => noHaz (some i) r
  | .wait _ :: r => noHaz none r
  | .tinA s :: r => decide (o ≠ some s) && noHaz o r
  | .tinB s :: r => decide (o ≠ some s) && noHaz o r
  | .tout s :: r => decide (o ≠ some s) && noHaz o r

theorem outstandingAfter_append (o : Option Nat) (xs ys : List Ev) :
    outstandingAfter o (xs ++ ys) = outstandingAfter (outstandingAfter o xs) ys := by
  induction xs generalizing o with
  | nil => rfl
  | cons e r ih => cases e <;> simp [outstandingAfter, ih]

theorem noHaz_append (o : Option Nat) (xs ys : List Ev) :
    noHaz o (xs ++ ys) = (noHaz o xs && noHaz (outstandingAfter o xs) ys) := by
  induction xs generalizing o with
  | nil => simp [noHaz, outstandingAfter]
  | cons e r ih => cases e <;> simp [noHaz, outstandingAfter, ih, Bool.and_assoc]

theorem outstandingAfter_iterEvs (n d i : Nat) (o : Option Nat) :
    outstandingAfter o (iterEvs n d i) = none := by
  by_cases h1 : i + d < n <;> by_cases h2 : d ≤ i <;>
    simp [iterEvs, h1, h2, outstandingAfter]

theorem noHaz_iterEvs (n d i : Nat) (hd : 1 ≤ d) (o : Option Nat) :
    noHaz o (iterEvs n d i) = true := by
  by_cases h1 : i + d < n <;> by_cases h2 : d ≤ i <;>
    simp [iterEvs, h1, h2, noHaz] <;> omega

theorem outstandingAfter_primeEvs (d : Nat) (o : Option Nat) :
    outstandingAfter o (primeEvs d) = o := by
  induction d with
  | zero => rfl
  | succ d ih =>
      have hsplit : primeEvs (d + 1) = primeEvs d ++ [.tinA d, .tinB d] := by
        simp [primeEvs, List.range_succ]
      rw [hsplit, outstandingAfter_append, ih]
      rfl

theorem noHaz_none_primeEvs (d : Nat) : noHaz none (primeEvs d) = true := by
  induction d with
  | zero => rfl
  | succ d ih =>
      have hsplit : primeEvs (d + 1) = primeEvs d ++ [.tinA d, .tinB d] := by
        simp [primeEvs, List.range_succ]
      rw [hsplit, noHaz_append, outstandingAfter_primeEvs, ih]
      simp [noHaz]

theorem outstandingAfter_toutRun (c m : Nat) (o : Option Nat) :
    outstandingAfter o ((List.range m).map (fun j => Ev.tout (c + j))) = o := by
  induction m with
  | zero => rfl
  | succ m ih =>
      rw [List.range_succ, List.map_append, outstandingAfter_append, ih]
      rfl

theorem noHaz_none_toutRun (c m : Nat) :
    noHaz none ((List.range m).map (fun j => Ev.tout (c + j))) = true := by
  induction m with
  | zero => rfl
  | succ m ih =>
      rw [List.range_succ, List.map_append, noHaz_append, outstandingAfter_toutRun, ih]
      simp [noHaz]

theorem outstandingAfter_drainEvs (n d : Nat) (o : Option Nat) :
    outstandingAfter o (drainEvs n d) = o := by
  rw [drainEvs]
  exact outstandingAfter_toutRun (n - d) d o

theorem noHaz_none_drainEvs (n d : Nat) : noHaz none (drainEvs n d) = true := by
  rw [drainEvs]
  exact noHaz_none_toutRun (n - d) d

theorem noHaz_blocks (n d : Nat) (hd : 1 ≤ d) (l : List Nat) (o : Option Nat) :
    noHaz o (l.flatMap (iterEvs n d)) = true := by
  induction l generalizing o with
  | nil => rfl
  | cons x xs ih =>
      rw [List.flatMap_cons, noHaz_append, outstandingAfter_iterEvs,
        noHaz_iterEvs n d x hd, ih]
      rfl

theorem outstandingAfter_blocks (n d : Nat) (l : List Nat) :
    l ≠ [] → ∀ o, outstandingAfter o (l.flatMap (iterEvs n d)) = none := by
  induction l with
  | nil => intro hl; cases hl rfl
  | cons x xs ih =>
      intro _ o
      rw [List.flatMap_cons, outstandingAfter_append, outstandingAfter_iterEvs]
      cases xs with
      | nil => rfl
      | cons y ys => exact ih (by simp) none

/-- Hazard-freedom check for inputs: scanning the trace while
accumulating the slices already transferred in (per input buffer), every
invocation start must find its slice already transferred in for both
inputs. -/
def tinOk (tA tB : List Nat) : List Ev → Bool
  | [] => true
  | .tinA s :: r => tinOk (s :: tA) tB r
  | .tinB s :: r => tinOk tA (s :: tB) r
  | .start s :: r => decide (s ∈ tA) && decide (s ∈ tB) && tinOk tA tB r
  | .wait _ :: r => tinOk tA tB r
  | .tout _ :: r => tinOk tA tB r

/-- Slices of the first input transferred in during a trace. -/
def tinAccA (tA : List Nat) : List Ev → List Nat
  | [] => tA
  | .tinA s :: r => tinAccA (s :: tA) r
  | .tinB _ :: r => tinAccA tA r
  | .start _ :: r => tinAccA tA r
  | .wait _ :: r => tinAccA tA r
  | .tout _ :: r => tinAccA tA r

/-- Slices of the second input transferred in during a trace. -/
def tinAccB (tB : List Nat) : List Ev → List Nat
  | [] => tB
  | .tinA _ :: r => tinAccB tB r
  | .tinB s :: r => tinAccB (s :: tB) r
  | .start _ :: r => tinAccB tB r
  | .wait _ :: r => tinAccB tB r
  | .tout _ :: r => tinAccB tB r

theorem tinAccA_append (tA : List Nat) (xs ys : List Ev) :
    tinAccA tA (xs ++ ys) = tinAccA (tinAccA tA xs) ys := by
  induction xs generalizing tA with
  | nil => rfl
  | cons e r ih => cases e <;> simp [tinAccA, ih]

theorem tinAccB_append (tB : List Nat) (xs ys : List Ev) :
    tinAccB tB (xs ++ ys) = tinAccB (tinAccB tB xs) ys := by
  induction xs generalizing tB with
  | nil => rfl
  | cons e r ih => cases e <;> simp [tinAccB, ih]

theorem tinOk_append (tA tB : List Nat) (xs ys : List Ev) :
    tinOk tA tB (xs ++ ys) =
      (tinOk tA tB xs && tinOk (tinAccA tA xs) (tinAccB tB xs) ys) := by
  induction xs generalizing tA tB with
  | nil => simp [tinOk, tinAccA, tinAccB]
  | cons e r ih =>
      cases e <;> simp [tinOk, tinAccA, tinAccB, ih, Bool.and_assoc]

theorem tinAccA_primeEvs (tA : List Nat) (d : Nat) :
    tinAccA tA (primeEvs d) = (List.range d).reverse ++ tA := by
  induction d with
  | zero => rfl
  | succ d ih =>
      have hsplit : primeEvs (d + 1) = primeEvs d ++ [.tinA d, .tinB d] := by
        simp [primeEvs, List.range_succ]
      rw [hsplit, tinAccA_append, ih, List.range_succ, List.reverse_append]
      rfl

theorem tinAccB_primeEvs (tB : List Nat) (d : Nat) :
    tinAccB tB (primeEvs d) = (List.range d).reverse ++ tB := by
  induction d with
  | zero => rfl
  | succ d ih =>
      have hsplit : primeEvs (d + 1) = primeEvs d ++ [.tinA d, .tinB d] := by
        simp [primeEvs, List.range_succ]
      rw [hsplit, tinAccB_append, ih, List.range_succ, List.reverse_append]
      rfl

theorem tinOk_primeEvs (tA tB : List Nat) (d : Nat) :
    tinOk tA tB (primeEvs d) = true := by
  induction d generalizing tA tB with
  | zero => rfl
  | succ d ih =>
      have hsplit : primeEvs (d + 1) = primeEvs d ++ [.tinA d, .tinB d] := by
        simp [primeEvs, List.range_succ]
      rw [hsplit, tinOk_append, ih]
      simp [tinOk]

theorem tinOk_toutRun (tA tB : List Nat) (c m : Nat) :
    tinOk tA tB ((List.range m).map (fun j => Ev.tout (c + j))) = true := by
  induction m with
  | zero => rfl
  | succ m ih =>
      rw [List.range_succ, List.map_append, tinOk_append, ih]
      simp [tinOk]

theorem tinAccA_iterEvs (tA : List Nat) (n d i : Nat) :
    tinAccA tA (iterEvs n d i) = if i + d < n then (i + d) :: tA else tA := by
  by_cases h1 : i + d < n <;> by_cases h2 : d ≤ i <;>
    simp [iterEvs, h1, h2, tinAccA]

theorem tinAccB_iterEvs (tB : List Nat) (n d i : Nat) :
    tinAccB tB (iterEvs n d i) = if i + d < n then (i + d) :: tB else tB := by
  by_cases h1 : i + d < n <;> by_cases h2 : d ≤ i <;>
    simp [iterEvs, h1, h2, tinAccB]

theorem tinOk_iterEvs (tA tB : List Nat) (n d i : Nat)
    (hA : i ∈ tA) (hB : i ∈ tB) :
    tinOk tA tB (iterEvs n d i) = true := by
  by_cases h1 : i + d < n <;> by_cases h2 : d ≤ i <;>
    simp [iterEvs, h1, h2, tinOk, hA, hB]

theorem tinOk_blocks (n d : Nat) (hd : 1 ≤ d) (r : Nat) :
    ∀ (i : Nat) (tA tB : List Nat),
      (∀ j, j < min (i + d) n → j ∈ tA) → (∀ j, j < min (i + d) n → j ∈ tB) →
      i + r ≤ n →
      tinOk tA tB ((List.range' i r).flatMap (iterEvs n d)) = true := by
  induction r with
  | zero => intro i tA tB _ _ _; rfl
  | succ r ih =>
      intro i tA tB hA hB hir
      rw [List.range'_succ, List.flatMap_cons, tinOk_append,
        tinOk_iterEvs tA tB n d i (hA i (by omega)) (hB i (by omega)),
        tinAccA_iterEvs, tinAccB_iterEvs]
      by_cases h1 : i + d < n
      · rw [if_pos h1, if_pos h1]
        have hA' : ∀ j, j < min ((i + 1) + d) n → j ∈ (i + d) :: tA := by
          intro j hj
          rcases Nat.lt_or_ge j (i + d) with hlt | hge
          · exact List.mem_cons_of_mem _ (hA j (by omega))
          · have hj2 : j = i + d := by omega
            rw [hj2]
            exact List.mem_cons_self _ _
        have hB' : ∀ j, j < min ((i + 1) + d) n → j ∈ (i + d) :: tB := by
          intro j hj
          rcases Nat.lt_or_ge j (i + d) with hlt | hge
          · exact List.mem_cons_of_mem _ (hB j (by omega))
          · have hj2 : j = i + d := by omega
            rw [hj2]
            exact List.mem_cons_self _ _
        rw [ih (i + 1) _ _ hA' hB' (by omega)]
        rfl
      · rw [if_neg h1, if_neg h1,
          ih (i + 1) _ _ (fun j hj => hA j (by omega)) (fun j hj => hB j (by omega))
          (by omega)]
        rfl

theorem tinOk_serial_blocks (r : Nat) :
    ∀ (i : Nat) (tA tB : List Nat),
      tinOk tA tB ((List.range' i r).flatMap serialIterEvs) = true := by
  induction r with
  | zero => intro i tA tB; rfl
  | succ r ih =>
      intro i tA tB
      rw [List.range'_succ, List.flatMap_cons, tinOk_append]
      have hblk : tinOk tA tB (serialIterEvs i) = true := by
        simp [serialIterEvs, tinOk]
      rw [hblk]
      simp only [serialIterEvs, tinAccA, tinAccB]
      rw [ih (i + 1) _ _]
      rfl

/-- Ordering check for outputs: scanning the trace while accumulating
the slices whose invocation has been waited on, every transfer-out must
target a slice whose invocation completed. -/
def toutOk (w : List Nat) : List Ev → Bool
  | [] => true
  | .wait s :: r => toutOk (s :: w) r
  | .tout s :: r => decide (s ∈ w) && toutOk w r
  | .tinA _ :: r => toutOk w r
  | .tinB _ :: r => toutOk w r
  | .start _ :: r => toutOk w r

/-- Slices waited on during a trace. -/
def waitAcc (w : List Nat) : List Ev → List Nat
  | [] => w
  | .wait s :: r => waitAcc (s :: w) r
  | .tinA _ :: r => waitAcc w r
  | .tinB _ :: r => waitAcc w r
  | .start _ :: r => waitAcc w r
  | .tout _ :: r => waitAcc w r

theorem waitAcc_append (w : List Nat) (xs ys : List Ev) :
    waitAcc w (xs ++ ys) = waitAcc (waitAcc w xs) ys := by
  induction xs generalizing w with
  | nil => rfl
  | cons e r ih => cases e <;> simp [waitAcc, ih]

theorem toutOk_append (w : List Nat) (xs ys : List Ev) :
    toutOk w (xs ++ ys) = (toutOk w xs && toutOk (waitAcc w xs) ys) := by
  induction xs generalizing w with
  | nil => simp [toutOk, waitAcc]
  | cons e r ih => cases e <;> simp [toutOk, waitAcc, ih, Bool.and_assoc]

theorem waitAcc_primeEvs (w : List Nat) (d : Nat) :
    waitAcc w (primeEvs d) = w := by
  induction d with
  | zero => rfl
  | succ d ih =>
      have hsplit : primeEvs (d + 1) = primeEvs d ++ [.tinA d, .tinB d] := by
        simp [primeEvs, List.range_succ]
      rw [hsplit, waitAcc_append, ih]
      rfl

theorem toutOk_primeEvs (w : List Nat) (d : Nat) :
    toutOk w (primeEvs d) = true := by
  induction d generalizing w with
  | zero => rfl
  | succ d ih =>
      have hsplit : primeEvs (d + 1) = primeEvs d ++ [.tinA d, .tinB d] := by
        simp [primeEvs, List.range_succ]
      rw [hsplit, toutOk_append, ih]
      simp [toutOk]

theorem waitAcc_iterEvs (w : List Nat) (n d i : Nat) :
    waitAcc w (iterEvs n d i) = i :: w := by
  by_cases h1 : i + d < n <;> by_cases h2 : d ≤ i <;>
    simp [iterEvs, h1, h2, waitAcc]

theorem toutOk_iterEvs (w : List Nat) (n d i : Nat)
    (hw : ∀ j, j < i → j ∈ w) (hd : 1 ≤ d) :
    toutOk w (iterEvs n d i) = true := by
  by_cases h1 : i + d < n <;> by_cases h2 : d ≤ i
  · simp [iterEvs, h1, h2, toutOk, hw (i - d) (by omega)]
  · simp [iterEvs, h1, h2, toutOk]
  · simp [iterEvs, h1, h2, toutOk, hw (i - d) (by omega)]
  · simp [iterEvs, h1, h2, toutOk]

theorem toutOk_blocks (n d : Nat) (hd : 1 ≤ d) (r : Nat) :
    ∀ (i : Nat) (w : List Nat), (∀ j, j < i → j ∈ w) →
      toutOk w ((List.range' i r).flatMap (iterEvs n d)) = true := by
  induction r with
  | zero => intro i w _; rfl
  | succ r ih =>
      intro i w hw
      rw [List.range'_succ, List.flatMap_cons, toutOk_append,
        toutOk_iterEvs w n d i hw hd, waitAcc_iterEvs]
      rw [ih (i + 1) _ ?_]
      · rfl
      · intro j hj
        rcases Nat.lt_or_ge j i with hlt | hge
        · exact List.mem_cons_of_mem _ (hw j hlt)
        · have : j = i := by omega
          rw [this]
          exact List.mem_cons_self _ _

theorem waitAcc_blocks (n d : Nat) (r : Nat) :
    ∀ (i : Nat) (w : List Nat),
      waitAcc w ((List.range' i r).flatMap (iterEvs n d)) =
        (List.range' i r).reverse ++ w := by
  induction r with
  | zero => intro i w; rfl
  | succ r ih =>
      intro i w
      rw [List.range'_succ, List.flatMap_cons, waitAcc_append, waitAcc_iterEvs,
        ih (i + 1) _, List.reverse_cons, List.append_assoc]
      rfl

theorem waitAcc_toutRun (w : List Nat) (c m : Nat) :
    waitAcc w ((List.range m).map (fun j => Ev.tout (c + j))) = w := by
  induction m with
  | zero => rfl
  | succ m ih =>
      rw [List.range_succ, List.map_append, waitAcc_append, ih]
      rfl

theorem toutOk_toutRun (w : List Nat) (c m : Nat)
    (hw : ∀ j, c ≤ j → j < c + m → j ∈ w) :
    toutOk w ((List.range m).map (fun j => Ev.tout (c + j))) = true := by
  induction m with
  | zero => rfl
  | succ m ih =>
      rw [List.range_succ, List.map_append, toutOk_append,
        ih (fun j h1 h2 => hw j h1 (by omega)), waitAcc_toutRun]
      simp [toutOk, hw (c + m) (by omega) (by omega)]

/-! ## Wrappers of the block lemmas for `List.range`-shaped traces -/

theorem tinOk_blocks_range (n d : Nat) (hd : 1 ≤ d) (tA tB : List Nat)
    (hA : ∀ j, j < min d n → j ∈ tA) (hB : ∀ j, j < min d n → j ∈ tB) :
    tinOk tA tB ((List.range n).flatMap (iterEvs n d)) = true := by
  rw [List.range_eq_range']
  exact tinOk_blocks n d hd n 0 tA tB (fun j hj => hA j (by omega))
    (fun j hj => hB j (by omega)) (by omega)

theorem toutOk_blocks_range (n d : Nat) (hd : 1 ≤ d) :
    toutOk [] ((List.range n).flatMap (iterEvs n d)) = true := by
  rw [List.range_eq_range']
  exact toutOk_blocks n d hd n 0 [] (fun j hj => absurd hj (by omega))

theorem waitAcc_blocks_range (n d : Nat) (w : List Nat) :
    waitAcc w ((List.range n).flatMap (iterEvs n d)) = (List.range n).reverse ++ w := by
  rw [List.range_eq_range']
  exact waitAcc_blocks n d n 0 w

/-! ## Membership and shape facts about the phases -/

theorem start_not_mem_primeEvs (d j : Nat) : Ev.start j ∉ primeEvs d := by
  simp [primeEvs, List.mem_flatMap, List.mem_range]

theorem tinA_mem_primeEvs (d j : Nat) (h : j < d) : Ev.tinA j ∈ primeEvs d := by
  rw [primeEvs, List.mem_flatMap]
  exact ⟨j, by simpa [List.mem_range] using h, by simp⟩

theorem tinB_mem_primeEvs (d j : Nat) (h : j < d) : Ev.tinB j ∈ primeEvs d := by
  rw [primeEvs, List.mem_flatMap]
  exact ⟨j, by simpa [List.mem_range] using h, by simp⟩

theorem start_mem_iterEvs (n d i j : Nat) : Ev.start j ∈ iterEvs n d i → j = i := by
  by_cases h1 : i + d < n <;> by_cases h2 : d ≤ i <;>
    simp [iterEvs, h1, h2]

theorem getLast?_iterEvs (n d i : Nat) :
    (iterEvs n d i).getLast? = some (Ev.wait i) := by
  by_cases h1 : i + d < n <;> by_cases h2 : d ≤ i <;>
    · simp only [iterEvs, h1, h2, if_true, if_false, ite_true, ite_false,
        List.cons_append, List.nil_append]
      rfl

theorem getLast?_blocks (n d : Nat) (r : Nat) :
    ∀ i, 1 ≤ r → ((List.range' i r).flatMap (iterEvs n d)).getLast? =
      some (Ev.wait (i + r - 1)) := by
  induction r with
  | zero => intro i h; omega
  | succ r ih =>
      intro i _
      rw [List.range'_succ, List.flatMap_cons]
      cases Nat.eq_zero_or_pos r with
      | inl h0 =>
          subst h0
          simp [getLast?_iterEvs]
      | inr hp =>
          rw [List.getLast?_append, ih (i + 1) hp]
          have harith : i + 1 + r - 1 = i + (r + 1) - 1 := by omega
          rw [harith, Option.or_some]

theorem overLoop_err_shape (inA inB : Buffer) (n d : Nat) (f : Nat → Bool) (r : Nat) :
    ∀ (i : Nat) (st : MachState), (overLoop inA inB n d f r i st).2.2 = none ∨
      ∃ kk, (overLoop inA inB n d f r i st).2.2 =
        some (.invocationFailure kk .invoke) := by
  induction r with
  | zero => intro i st; exact Or.inl rfl
  | succ r ih =>
      intro i st
      by_cases hf : f i
      · simp only [overLoop, hf, if_true, ite_true]
        exact Or.inr ⟨i, rfl⟩
      · simp only [overLoop, hf, Bool.false_eq_true, if_false, ite_false]
        exact ih (i + 1) _

/-! ## Filtering the start/wait subtrace -/

/-- Whether a runtime call is an invocation start or wait. -/
def isSW : Ev → Bool
  | .start _ => true
  | .wait _ => true
  | .tinA _ => false
  | .tinB _ => false
  | .tout _ => false

theorem filter_isSW_primeEvs (d : Nat) : (primeEvs d).filter isSW = [] := by
  induction d with
  | zero => rfl
  | succ d ih =>
      have hsplit : primeEvs (d + 1) = primeEvs d ++ [.tinA d, .tinB d] := by
        simp [primeEvs, List.range_succ]
      rw [hsplit, List.filter_append, ih]
      rfl

theorem filter_isSW_toutRun (c m : Nat) :
    ((List.range m).map (fun j => Ev.tout (c + j))).filter isSW = [] := by
  induction m with
  | zero => rfl
  | succ m ih =>
      rw [List.range_succ, List.map_append, List.filter_append, ih]
      rfl

theorem filter_isSW_iterEvs (n d i : Nat) :
    (iterEvs n d i).filter isSW = [.start i, .wait i] := by
  by_cases h1 : i + d < n <;> by_cases h2 : d ≤ i <;>
    · simp only [iterEvs, h1, h2, if_true, if_false, ite_true, ite_false,
        List.cons_append, List.nil_append]
      rfl

theorem filter_isSW_blocks (n d : Nat) (l : List Nat) :
    (l.flatMap (iterEvs n d)).filter isSW =
      l.flatMap (fun i => [Ev.start i, Ev.wait i]) := by
  induction l with
  | nil => rfl
  | cons x xs ih =>
      rw [List.flatMap_cons, List.flatMap_cons, List.filter_append,
        filter_isSW_iterEvs, ih]

/-! ## Elementwise facts about the reference computation -/

theorem vaddRef_getD (inA inB : Buffer) (i : Nat) (h : inA.length = inB.length) :
    (vaddRef inA inB).getD i [] = refSlice inA inB i := by
  by_cases hi : i < inA.length
  · rw [vaddRef, refSlice,
      List.getD_eq_getElem _ [] (by rw [List.length_zipWith]; omega),
      List.getElem_zipWith,
      List.getD_eq_getElem inA [] (by omega), List.getD_eq_getElem inB [] (by omega)]
  · rw [vaddRef, refSlice,
      List.getD_eq_default _ [] (by rw [List.length_zipWith]; omega),
      List.getD_eq_default inA [] (by omega)]
    rfl

theorem zipWith_wrapAdd32_small (xs ys : List Nat)
    (hx : ∀ x ∈ xs, x < 1000) (hy : ∀ y ∈ ys, y < 1000) :
    List.zipWith wrapAdd32 xs ys = List.zipWith (fun a b => a + b) xs ys := by
  induction xs generalizing ys with
  | nil => simp
  | cons x xs ih =>
      cases ys with
      | nil => simp
      | cons y ys =>
          rw [List.zipWith_cons_cons, List.zipWith_cons_cons,
            ih ys (fun a ha => hx a (List.mem_cons_of_mem _ ha))
              (fun b hb => hy b (List.mem_cons_of_mem _ hb))]
          have hxy : x + y < 2 ^ 32 := by
            have hx0 : x < 1000 := hx x (List.mem_cons_self _ _)
            have hy0 : y < 1000 := hy y (List.mem_cons_self _ _)
            have h32 : (2 : Nat) ^ 32 = 4294967296 := by norm_num
            omega
          rw [wrapAdd32, Nat.mod_eq_of_lt hxy]

/-! ## The claims -/

/-- C1: for every valid pair of input buffers (equal slice counts and
shapes, matching `slice_count`) and every valid `pipeline_depth`, the
serial execution and the overlapped execution produce identical output
buffers, and both equal the elementwise reference computation: for every
slice `i` and every element, `output[i] = input_a[i] + input_b[i]`
(under the kernel's `u4` semantics). -/
theorem claim_C1 (inA inB out : Buffer) (n d : Nat)
    (hA : inA.length = n) (hB : inB.length = n) (hO : out.length = n)
    (hn : 1 ≤ n) (hd : 1 ≤ d) (hdn : d ≤ n) :
    (run_overlapped inA inB out n d (fun _ => false)).2 =
        Except.ok ((run_serial inA inB out n).2) ∧
      (run_serial inA inB out n).2 = vaddRef inA inB ∧
      ∀ i, i < n → (run_serial inA inB out n).2.getD i [] =
        List.zipWith wrapAdd32 (inA.getD i []) (inB.getD i []) := by
  have hs := run_serial_correct inA inB out n hA hB hO
  refine ⟨?_, hs, ?_⟩
  · rw [hs]
    exact run_overlapped_correct inA inB out n d hA hB hO hn hd hdn
  · intro i hi
    rw [hs, vaddRef_getD inA inB i (by omega)]
    rfl

/-- Witness for C1 at a concrete input. -/
theorem claim_C1_witness :
    (run_overlapped [[1, 2], [3]] [[10, 20], [30]] [[0, 0], [0]] 2 1
        (fun _ => false)).2 =
        Except.ok ((run_serial [[1, 2], [3]] [[10, 20], [30]] [[0, 0], [0]] 2).2) ∧
      (run_serial [[1, 2], [3]] [[10, 20], [30]] [[0, 0], [0]] 2).2 =
        vaddRef [[1, 2], [3]] [[10, 20], [30]] ∧
      ∀ i, i < 2 →
        (run_serial [[1, 2], [3]] [[10, 20], [30]] [[0, 0], [0]] 2).2.getD i [] =
          List.zipWith wrapAdd32 (([[1, 2], [3]] : Buffer).getD i [])
            (([[10, 20], [30]] : Buffer).getD i []) :=
  claim_C1 [[1, 2], [3]] [[10, 20], [30]] [[0, 0], [0]] 2 1 rfl rfl rfl
    (by decide) (by decide) (by decide)

/-- C2: at every instant during `run_overlapped`, each buffer slice is
owned by at most one in-flight operation: scanning the whole trace, every
transfer issued while an invocation is outstanding targets a slice
distinct from the invocation's slice, for every `slice_count ≥ 1` and
every valid `pipeline_depth`. -/
theorem claim_C2 (inA inB out : Buffer) (n d : Nat)
    (hAB : inA.length = inB.length) (hAO : inA.length = out.length)
    (hn : 1 ≤ n) (hd : 1 ≤ d) (hdn : d ≤ n) :
    noHaz none ((run_overlapped inA inB out n d (fun _ => false)).1) = true := by
  rw [run_overlapped_eq inA inB out n d hAB hAO hn hd hdn]
  dsimp only
  have hne : List.range n ≠ [] := by
    rw [Ne, List.range_eq_nil]
    omega
  rw [overlappedTrace, noHaz_append, noHaz_append, outstandingAfter_append,
    outstandingAfter_primeEvs, outstandingAfter_blocks n d (List.range n) hne none,
    noHaz_none_primeEvs, noHaz_blocks n d hd (List.range n) none,
    noHaz_none_drainEvs]
  rfl

/-- Witness for C2 at a concrete input. -/
theorem claim_C2_witness :
    noHaz none ((run_overlapped [[1], [2], [3]] [[4], [5], [6]] [[0], [0], [0]]
      3 2 (fun _ => false)).1) = true :=
  claim_C2 [[1], [2], [3]] [[4], [5], [6]] [[0], [0], [0]] 3 2 rfl rfl
    (by decide) (by decide) (by decide)

/-- C3: in `run_overlapped` with `pipeline_depth = 1`, for every
`slice_count ≥ 1`, the subtrace of invocation events is exactly
`start 0, wait 0, start 1, wait 1, ...`: no two starts occur without an
intervening wait on the previous handle, and at most one invocation is
outstanding at any time. -/
theorem claim_C3 (inA inB out : Buffer) (n : Nat)
    (hAB : inA.length = inB.length) (hAO : inA.length = out.length)
    (hn : 1 ≤ n) :
    ((run_overlapped inA inB out n 1 (fun _ => false)).1).filter isSW =
      (List.range n).flatMap (fun i => [Ev.start i, Ev.wait i]) := by
  rw [run_overlapped_eq inA inB out n 1 hAB hAO hn (le_refl 1) hn]
  dsimp only
  rw [overlappedTrace, List.filter_append, List.filter_append,
    filter_isSW_primeEvs, filter_isSW_blocks, drainEvs, filter_isSW_toutRun]
  simp

/-- Witness for C3 at a concrete input. -/
theorem claim_C3_witness :
    ((run_overlapped [[1], [2]] [[3], [4]] [[0], [0]] 2 1
        (fun _ => false)).1).filter isSW =
      (List.range 2).flatMap (fun i => [Ev.start i, Ev.wait i]) :=
  claim_C3 [[1], [2]] [[3], [4]] [[0], [0]] 2 rfl rfl (by decide)

/-- C4: in both serial and overlapped modes, the transfer-in of each
slice of both input buffers precedes (and, transfers being blocking
per-call, completes before) the invocation start reading that slice:
scanning either trace while accumulating transferred-in slices, every
start finds its slice already transferred for both inputs. -/
theorem claim_C4 (inA inB out : Buffer) (n d : Nat)
    (hAB : inA.length = inB.length) (hAO : inA.length = out.length)
    (hn : 1 ≤ n) (hd : 1 ≤ d) (hdn : d ≤ n) :
    tinOk [] [] ((run_serial inA inB out n).1) = true ∧
    tinOk [] [] ((run_overlapped inA inB out n d (fun _ => false)).1) = true := by
  constructor
  · rw [run_serial_eq]
    dsimp only
    rw [serialTrace, List.range_eq_range']
    exact tinOk_serial_blocks n 0 [] []
  · rw [run_overlapped_eq inA inB out n d hAB hAO hn hd hdn]
    dsimp only
    have covA : ∀ j, j < min d n → j ∈ (List.range d).reverse ++ ([] : List Nat) := by
      intro j hj
      simp only [List.append_nil, List.mem_reverse, List.mem_range]
      omega
    have covB : ∀ j, j < min d n → j ∈ (List.range d).reverse ++ ([] : List Nat) := covA
    rw [overlappedTrace, tinOk_append, tinOk_append, tinAccA_append, tinAccB_append,
      tinOk_primeEvs, tinAccA_primeEvs, tinAccB_primeEvs,
      tinOk_blocks_range n d hd _ _ covA covB, drainEvs, tinOk_toutRun]
    rfl

/-- Witness for C4 at a concrete input. -/
theorem claim_C4_witness :
    tinOk [] [] ((run_serial [[1], [2]] [[3], [4]] [[0], [0]] 2).1) = true ∧
    tinOk [] [] ((run_overlapped [[1], [2]] [[3], [4]] [[0], [0]] 2 1
      (fun _ => false)).1) = true :=
  claim_C4 [[1], [2]] [[3], [4]] [[0], [0]] 2 1 rfl rfl
    (by decide) (by decide) (by decide)

/-- C5: in `run_overlapped`, the transfer-out of each output slice is
issued only after the wait on that slice's invocation handle returned:
scanning the trace while accumulating waited-on slices, every
transfer-out finds its slice's invocation already completed. -/
theorem claim_C5 (inA inB out : Buffer) (n d : Nat)
    (hAB : inA.length = inB.length) (hAO : inA.length = out.length)
    (hn : 1 ≤ n) (hd : 1 ≤ d) (hdn : d ≤ n) :
    toutOk [] ((run_overlapped inA inB out n d (fun _ => false)).1) = true := by
  rw [run_overlapped_eq inA inB out n d hAB hAO hn hd hdn]
  dsimp only
  have covW : ∀ j, n - d ≤ j → j < n - d + d →
      j ∈ (List.range n).reverse ++ ([] : List Nat) := by
    intro j h1 h2
    simp only [List.append_nil, List.mem_reverse, List.mem_range]
    omega
  rw [overlappedTrace, toutOk_append, toutOk_append, waitAcc_append,
    toutOk_primeEvs, waitAcc_primeEvs, toutOk_blocks_range n d hd,
    waitAcc_blocks_range, drainEvs, toutOk_toutRun _ _ _ covW]
  rfl

/-- Witness for C5 at a concrete input. -/
theorem claim_C5_witness :
    toutOk [] ((run_overlapped [[1], [2]] [[3], [4]] [[0], [0]] 2 1
      (fun _ => false)).1) = true :=
  claim_C5 [[1], [2]] [[3], [4]] [[0], [0]] 2 1 rfl rfl
    (by decide) (by decide) (by decide)

/-- C6: `run_serial` performs exactly `slice_count` iterations with
strictly increasing slice index, each consisting (in order) of the
transfer-in of slice `i` of both inputs, a synchronous invocation
(start immediately followed by wait) on slice `i`, and the transfer-out
of slice `i` of the output; it returns the host output buffer obtained
after this entire call sequence has executed. -/
theorem claim_C6 (inA inB out : Buffer) (n : Nat) :
    (run_serial inA inB out n).1 =
      (List.range n).flatMap
        (fun i => [Ev.tinA i, Ev.tinB i, Ev.start i, Ev.wait i, Ev.tout i]) ∧
    (run_serial inA inB out n).2 =
      (execEvs inA inB (initState out) ((run_serial inA inB out n).1)).hostOut := by
  rw [run_serial_eq]
  exact ⟨rfl, rfl⟩

/-- C7: if the invocation for slice `k` reports a device-side fault (and
no earlier one does), `run_overlapped` returns an error identifying slice
`k` and phase `invoke`, starts no invocation for any slice greater than
`k`, issues no further call after the fault is observed (the wait on
`k`'s handle is the last event of the trace), and leaves no invocation
outstanding. -/
theorem claim_C7 (inA inB out : Buffer) (n d k : Nat) (f : Nat → Bool)
    (hAB : inA.length = inB.length) (hAO : inA.length = out.length)
    (hn : 1 ≤ n) (hd : 1 ≤ d) (hdn : d ≤ n)
    (hk : k < n) (hfk : f k = true) (hfj : ∀ j, j < k → f j = false) :
    (run_overlapped inA inB out n d f).2 =
        Except.error (PipeError.invocationFailure k Phase.invoke) ∧
      (∀ j, Ev.start j ∈ (run_overlapped inA inB out n d f).1 → j ≤ k) ∧
      (run_overlapped inA inB out n d f).1.getLast? = some (Ev.wait k) ∧
      outstandingAfter none ((run_overlapped inA inB out n d f).1) = none := by
  obtain ⟨h1, h2⟩ := overLoop_fault inA inB n d f n 0 k
    (execEvs inA inB (initState out) (primeEvs d)) (by omega) (by omega) hfk
    (fun j _ hj => hfj j hj)
  have hrun : run_overlapped inA inB out n d f =
      (primeEvs d ++ (List.range' 0 (k + 1 - 0)).flatMap (iterEvs n d),
        .error (.invocationFailure k .invoke)) := by
    rw [run_overlapped, if_neg (by omega)]
    dsimp only
    rw [h2]
    dsimp only
    rw [h1]
  rw [hrun]
  have hblocksne : List.range' 0 (k + 1 - 0) ≠ [] := by
    rw [Ne, List.range'_eq_nil]
    omega
  refine ⟨rfl, ?_, ?_, ?_⟩
  · intro j hj
    rcases List.mem_append.mp hj with hp | hb
    · exact absurd hp (start_not_mem_primeEvs d j)
    · obtain ⟨i, hi, hmem⟩ := List.mem_flatMap.mp hb
      have hji := start_mem_iterEvs n d i j hmem
      obtain ⟨t, ht, hit⟩ := List.mem_range'.mp hi
      omega
  · have harith : 0 + (k + 1 - 0) - 1 = k := by omega
    rw [List.getLast?_append, getLast?_blocks n d (k + 1 - 0) 0 (by omega), harith,
      Option.or_some]
  · rw [outstandingAfter_append, outstandingAfter_primeEvs,
      outstandingAfter_blocks n d _ hblocksne none]

/-- Witness for C7 at a concrete input: fault injected on slice 1 of 2. -/
theorem claim_C7_witness :
    (run_overlapped [[1], [2]] [[3], [4]] [[0], [0]] 2 1 (fun j => j == 1)).2 =
        Except.error (PipeError.invocationFailure 1 Phase.invoke) ∧
      (∀ j, Ev.start j ∈
        (run_overlapped [[1], [2]] [[3], [4]] [[0], [0]] 2 1
          (fun j => j == 1)).1 → j ≤ 1) ∧
      (run_overlapped [[1], [2]] [[3], [4]] [[0], [0]] 2 1
        (fun j => j == 1)).1.getLast? = some (Ev.wait 1) ∧
      outstandingAfter none ((run_overlapped [[1], [2]] [[3], [4]] [[0], [0]] 2 1
        (fun j => j == 1)).1) = none :=
  claim_C7 [[1], [2]] [[3], [4]] [[0], [0]] 2 1 1 (fun j => j == 1) rfl rfl
    (by decide) (by decide) (by decide) (by decide) (by decide)
    (fun j hj => by
      have hj0 : j = 0 := by omega
      subst hj0
      rfl)

/-- C8: `run_overlapped` fails with `invalidArgument` — before issuing
any transfer or invocation (empty trace) — whenever the three buffers
disagree on the slice dimension, `slice_count < 1`,
`pipeline_depth = 0`, or `pipeline_depth > slice_count`; under the
stated preconditions it never returns `invalidArgument`. -/
theorem claim_C8 (inA inB out : Buffer) (n d : Nat) (f : Nat → Bool) :
    ((inA.length ≠ inB.length ∨ inA.length ≠ out.length ∨ n < 1 ∨ d = 0 ∨ n < d) →
      run_overlapped inA inB out n d f = ([], .error .invalidArgument)) ∧
    (inA.length = inB.length → inA.length = out.length → 1 ≤ n → 1 ≤ d → d ≤ n →
      (run_overlapped inA inB out n d f).2 ≠ .error .invalidArgument) := by
  constructor
  · intro h
    rw [run_overlapped, if_pos h]
  · intro h1 h2 h3 h4 h5
    rw [run_overlapped, if_neg (by omega)]
    dsimp only
    rcases overLoop_err_shape inA inB n d f n 0
      (execEvs inA inB (initState out) (primeEvs d)) with herr | ⟨kk, herr⟩ <;>
      rw [herr] <;> simp

/-- Witness for C8 at concrete inputs: an invalid call (slice count 0)
and a valid one. -/
theorem claim_C8_witness :
    run_overlapped [[1]] [[2]] [[0]] 0 1 (fun _ => false) =
        ([], .error .invalidArgument) ∧
      (run_overlapped [[1]] [[2]] [[0]] 1 1 (fun _ => false)).2 ≠
        .error .invalidArgument :=
  ⟨(claim_C8 [[1]] [[2]] [[0]] 0 1 (fun _ => false)).1 (by decide),
   (claim_C8 [[1]] [[2]] [[0]] 1 1 (fun _ => false)).2 rfl rfl (by decide)
     (by decide) (by decide)⟩

/-- C9: boundary behavior. With `slice_count = 1` the overlapped trace
degenerates to a single transfer-in of both inputs' slice 0, one
invocation start/wait, then one transfer-out, with no transfer between
the start and the wait. With `pipeline_depth = slice_count`, the trace
begins with a start-free prefix containing the transfer-in of every
input slice, so the whole input is primed before the first invocation
starts. -/
theorem claim_C9 :
    (∀ inA inB out : Buffer, inA.length = 1 → inB.length = 1 → out.length = 1 →
      (run_overlapped inA inB out 1 1 (fun _ => false)).1 =
        [Ev.tinA 0, Ev.tinB 0, Ev.start 0, Ev.wait 0, Ev.tout 0]) ∧
    (∀ (inA inB out : Buffer) (n : Nat), inA.length = n → inB.length = n →
      out.length = n → 1 ≤ n →
      ∃ p q, (run_overlapped inA inB out n n (fun _ => false)).1 = p ++ q ∧
        (∀ j, Ev.start j ∉ p) ∧
        (∀ j, j < n → Ev.tinA j ∈ p ∧ Ev.tinB j ∈ p)) := by
  constructor
  · intro inA inB out hA hB hO
    rw [run_overlapped_eq inA inB out 1 1 (by omega) (by omega) (by omega)
      (by omega) (by omega)]
    dsimp only
    decide
  · intro inA inB out n hA hB hO hn
    rw [run_overlapped_eq inA inB out n n (by omega) (by omega) hn hn (le_refl n)]
    dsimp only
    refine ⟨primeEvs n, (List.range n).flatMap (iterEvs n n) ++ drainEvs n n,
      ?_, ?_, ?_⟩
    · rw [overlappedTrace, List.append_assoc]
    · intro j
      exact start_not_mem_primeEvs n j
    · intro j hj
      exact ⟨tinA_mem_primeEvs n j hj, tinB_mem_primeEvs n j hj⟩

/-- Witness for C9 at concrete inputs. -/
theorem claim_C9_witness :
    (run_overlapped [[7]] [[8]] [[0]] 1 1 (fun _ => false)).1 =
        [Ev.tinA 0, Ev.tinB 0, Ev.start 0, Ev.wait 0, Ev.tout 0] ∧
      ∃ p q, (run_overlapped [[1], [2]] [[3], [4]] [[0], [0]] 2 2
          (fun _ => false)).1 = p ++ q ∧
        (∀ j, Ev.start j ∉ p) ∧
        (∀ j, j < 2 → Ev.tinA j ∈ p ∧ Ev.tinB j ∈ p) :=
  ⟨claim_C9.1 [[7]] [[8]] [[0]] rfl rfl rfl,
   claim_C9.2 [[1], [2]] [[3], [4]] [[0], [0]] 2 rfl rfl rfl (by decide)⟩

theorem vaddRef_eq_exact : ∀ (inA inB : Buffer),
    (∀ s ∈ inA, ∀ x ∈ s, x < 1000) → (∀ s ∈ inB, ∀ x ∈ s, x < 1000) →
    vaddRef inA inB =
      List.zipWith (fun x y => List.zipWith (fun a b => a + b) x y) inA inB
  | [], _, _, _ => by simp [vaddRef]
  | _ :: _, [], _, _ => by simp [vaddRef]
  | s :: ss, t :: ts, hA, hB => by
      rw [vaddRef, List.zipWith_cons_cons, List.zipWith_cons_cons,
        zipWith_wrapAdd32_small s t (hA s (List.mem_cons_self _ _))
          (hB t (List.mem_cons_self _ _))]
      have ihr := vaddRef_eq_exact ss ts
        (fun u hu => hA u (List.mem_cons_of_mem _ hu))
        (fun u hu => hB u (List.mem_cons_of_mem _ hu))
      rw [vaddRef] at ihr
      rw [ihr]

/-- C10: with every input element drawn from `[0, 1000)` (cell 31's
`np.random.randint(1000, ..., dtype='u4')`), each elementwise sum is at
most `1998 < 2^32`, so the kernel's wrapping `u4` addition coincides
with exact integer addition for every element, and the reference
comparison checks exact sums. -/
theorem claim_C10 :
    (∀ a b : Nat, a < 1000 → b < 1000 → a + b ≤ 1998 ∧ a + b < 2 ^ 32 ∧
      wrapAdd32 a b = a + b) ∧
    (∀ inA inB : Buffer,
      (∀ s ∈ inA, ∀ x ∈ s, x < 1000) → (∀ s ∈ inB, ∀ x ∈ s, x < 1000) →
      vaddRef inA inB =
        List.zipWith (fun x y => List.zipWith (fun a b => a + b) x y) inA inB) := by
  constructor
  · intro a b ha hb
    have h32 : (2 : Nat) ^ 32 = 4294967296 := by norm_num
    refine ⟨by omega, by omega, ?_⟩
    rw [wrapAdd32]
    exact Nat.mod_eq_of_lt (by omega)
  · exact vaddRef_eq_exact

/-- Witness for C10 at concrete inputs. -/
theorem claim_C10_witness :
    (999 + 999 ≤ 1998 ∧ 999 + 999 < 2 ^ 32 ∧ wrapAdd32 999 999 = 999 + 999) ∧
      vaddRef [[999, 0]] [[999, 5]] =
        List.zipWith (fun x y => List.zipWith (fun a b => a + b) x y)
          [[999, 0]] [[999, 5]] :=
  ⟨claim_C10.1 999 999 (by decide) (by decide),
   claim_C10.2 [[999, 0]] [[999, 5]] (by decide) (by decide)⟩

end KernelOpt
